import Mathlib

/-!
Verification of the suggestion-sanitization and comment-deduplication engine
of the Azure PR review agent.  JavaScript strings are modelled as `List Char`
(UTF-16 code units of the source strings are all representable as chars here);
JavaScript regular-expression operations over the concrete patterns appearing
in the source are modelled by equivalent explicit scanning functions, since
every pattern in the source is an escaped literal combined with character
classes, for which leftmost-match replacement semantics are deterministic.
File-system access (reading the original segment of the file under review) is
the external collaborator of the sanitizer (spec section 4.4) and is modelled
as an `Option (List Char)` input.
-/

abbrev JStr := List Char

deriving instance DecidableEq for Except

/-- The JavaScript whitespace class `\s` (also the set used by
`String.prototype.trim`): tab, LF, VT, FF, CR, space, NBSP, and the Unicode
space separators plus LS, PS, NNBSP, MMSP, ideographic space and BOM. -/
def isJsWs (c : Char) : Bool :=
  (9 ≤ c.toNat && c.toNat ≤ 13) || c.toNat == 32 || c.toNat == 160 ||
  c.toNat == 0x1680 || (0x2000 ≤ c.toNat && c.toNat ≤ 0x200a) ||
  c.toNat == 0x2028 || c.toNat == 0x2029 || c.toNat == 0x202f ||
  c.toNat == 0x205f || c.toNat == 0x3000 || c.toNat == 0xfeff

/-- JavaScript `s.trimStart()`. -/
def jsTrimStart (s : JStr) : JStr := s.dropWhile isJsWs

/-- JavaScript `s.trimEnd()`. -/
def jsTrimEnd (s : JStr) : JStr := (s.reverse.dropWhile isJsWs).reverse

/-- JavaScript `s.trim()`. -/
def jsTrim (s : JStr) : JStr := jsTrimEnd (jsTrimStart s)

/-- JavaScript `s.replace(/\s+$/u, "")`: removing the trailing whitespace run equals
`trimEnd` on the full string (the pattern is anchored at the end). -/
def stripTrailingWs (s : JStr) : JStr := jsTrimEnd s

/-- First half of `normalizeLineEndings`: `content.replace(/\r\n/g, "\n")`. -/
def replaceCRLF : JStr → JStr
  | [] => []
  | '\r' :: '\n' :: t => '\n' :: replaceCRLF t
  | c :: t => c :: replaceCRLF t

/-- Embedding of `normalizeLineEndings`: `content.replace(/\r\n/g, "\n").replace(/\r/g, "\n")`. -/
def normalizeLineEndings (s : JStr) : JStr :=
  (replaceCRLF s).map (fun c => if c = '\r' then '\n' else c)

/-- JavaScript `s.split("\n")`. -/
def splitOnNl : JStr → List JStr
  | [] => [[]]
  | '\n' :: t => [] :: splitOnNl t
  | c :: t =>
    match splitOnNl t with
    | h :: r => (c :: h) :: r
    | [] => [[c]]

/-- JavaScript `lines.join("\n")`. -/
def joinNl : List JStr → JStr
  | [] => []
  | [l] => l
  | l :: rest => l ++ '\n' :: joinNl rest

/-- The hex-digit class `[0-9a-f]` under the case-insensitive flag, which also
admits `A`–`F`. -/
def isHexDigit (c : Char) : Bool :=
  ('0' ≤ c && c ≤ '9') || ('a' ≤ c && c ≤ 'f') || ('A' ≤ c && c ≤ 'F')

/-- Case canonicalization used by a case-insensitive (non-Unicode-mode)
JavaScript regex for the ASCII letters appearing in the source's literals. -/
def lowerAscii (c : Char) : Char :=
  if 'A' ≤ c && c ≤ 'Z' then Char.ofNat (c.toNat + 32) else c

/-- Consume the literal `lit` (compared case-insensitively) from the front of
`s`, returning the remainder on success. -/
def dropLitCI : JStr → JStr → Option JStr
  | [], s => some s
  | _ :: _, [] => none
  | l :: lt, c :: ct => if lowerAscii c = l then dropLitCI lt ct else none

/-! ### The suggestion sanitizer (src/suggestionRendering.ts) -/

/-- Embedding of `isCommentLine`. -/
def isCommentLine (value : JStr) : Bool :=
  let normalized := jsTrimStart value
  "//".data.isPrefixOf normalized ||
  "/*".data.isPrefixOf normalized ||
  "* ".data.isPrefixOf normalized ||
  normalized = ['*'] ||
  "*/".data.isPrefixOf normalized

/-- The first loop of `stripOriginalFragments`: find the first original line
with a nonempty trimmed form equal to `trimmedLine`; report whether it is a
comment line. -/
def findExactOriginal (trimmedLine : JStr) : List JStr → Option Bool
  | [] => none
  | original :: rest =>
    let trimmedOriginal := jsTrim original
    if trimmedOriginal = [] then findExactOriginal trimmedLine rest
    else if trimmedLine = trimmedOriginal then some (isCommentLine trimmedOriginal)
    else findExactOriginal trimmedLine rest

/-- Whether the remainder after a fragment satisfies the lookahead
`(?=\s|$|,|;|\))`. -/
def fragBoundary : JStr → Bool
  | [] => true
  | c :: _ => isJsWs c || c = ',' || c = ';' || c = ')'

/-- One global replacement pass of
`new RegExp("(^|\\s)" + escapeForRegex(lit) + "(?=\\s|$|,|;|\\))", "gu")`
with the replacement keeping the captured prefix.  The pattern is an escaped
literal, so matching is literal substring search; `atStart` tracks whether the
`^` alternative of the first group is available (only at offset 0).  Scanning
resumes after the end of each match (the lookahead is not consumed). -/
def replFragGo (lit : JStr) : Nat → Bool → JStr → JStr
  | 0, _, s => s
  | _ + 1, _, [] => []
  | fuel + 1, atStart, s@(c :: t) =>
    if atStart && lit.isPrefixOf s && fragBoundary (s.drop lit.length) then
      replFragGo lit fuel false (s.drop lit.length)
    else if isJsWs c && lit.isPrefixOf t && fragBoundary (t.drop lit.length) then
      c :: replFragGo lit fuel false (t.drop lit.length)
    else
      c :: replFragGo lit fuel false t

/-- JavaScript `content.replace(fragmentPattern, (match, prefix) => prefix ?? "")`. -/
def replFrag (lit content : JStr) : JStr :=
  if lit = [] then content else replFragGo lit (content.length + 1) true content

/-- Fuel-driven worker for `collapseWsRuns` (fuel bounds the input length so
the recursion is structural and kernel-reducible). -/
def collapseWsRunsGo : Nat → JStr → JStr
  | 0, s => s
  | _ + 1, [] => []
  | fuel + 1, c :: t =>
    if isJsWs c then
      match t with
      | d :: _ =>
        if isJsWs d then ' ' :: collapseWsRunsGo fuel (t.dropWhile isJsWs)
        else c :: collapseWsRunsGo fuel t
      | [] => [c]
    else c :: collapseWsRunsGo fuel t

/-- JavaScript `content.replace(/\s{2,}/gu, " ")`: every maximal whitespace run of length
at least two becomes a single space; lone whitespace characters are kept. -/
def collapseWsRuns (s : JStr) : JStr := collapseWsRunsGo (s.length + 1) s

/-- Embedding of `stripOriginalFragments` (src/suggestionRendering.ts lines 129-164). -/
def stripOriginalFragments (line : JStr) (originalLines : List JStr) : JStr :=
  if jsTrim line = [] then []
  else
    let trimmedLine := jsTrim line
    match findExactOriginal trimmedLine originalLines with
    | some isComment => if isComment then line else []
    | none =>
      let leadingWhitespace := line.takeWhile isJsWs
      let content0 := line.drop leadingWhitespace.length
      let content1 := originalLines.foldl
        (fun content original =>
          let trimmed := jsTrim original
          if trimmed = [] then content else replFrag trimmed content)
        content0
      let content2 := jsTrim (collapseWsRuns content1)
      if content2 = [] then [] else leadingWhitespace ++ content2

/-- Embedding of `shouldPreserveOriginalLine` (lines 166-174). -/
def shouldPreserveOriginalLine (trimmedLine : JStr) (originalLines : List JStr) : Bool :=
  originalLines.any fun originalLine =>
    let trimmedOriginal := jsTrim originalLine
    trimmedOriginal = trimmedLine && isCommentLine trimmedOriginal

/-- The predicate of the `.filter` in `sanitizeSuggestionReplacement`
(lines 80-89). -/
def keepSanitizedLine (line : JStr) (originalLines : List JStr) : Bool :=
  let trimmed := jsTrimEnd line
  if trimmed = [] then false
  else if shouldPreserveOriginalLine trimmed originalLines then true
  else !(originalLines.any fun originalLine => jsTrim originalLine = jsTrim trimmed)

/-- The whole-segment suffix strip: the regex
`new RegExp(escapeForRegex(trimmedOriginal) + "\\s*$", "u")` matches iff the
input has the literal `lit` at some position followed only by whitespace, and
non-global `replace` removes the leftmost such occurrence together with the
whitespace tail, leaving the text before it.  Returns that remaining text on
success. -/
def stripSuffixPattern (lit : JStr) : JStr → Option JStr
  | [] =>
    if lit.isPrefixOf ([] : JStr) && (([] : JStr).drop lit.length).all isJsWs then some []
    else none
  | c :: t =>
    if lit.isPrefixOf (c :: t) && ((c :: t).drop lit.length).all isJsWs then some []
    else (stripSuffixPattern lit t).map (c :: ·)

/-- Deduplicate immediately adjacent identical lines (lines 90-95). -/
def dedupAdjacent : List JStr → List JStr
  | [] => []
  | l :: rest =>
    match dedupAdjacent rest with
    | [] => [l]
    | h :: r => if l = h then h :: r else l :: h :: r

/-- Adjacent dedup as in the source: keep a line unless it equals the previous
kept line.  (The source pushes left to right; `dedupLeft` is that loop.) -/
def dedupLeft : List JStr → List JStr
  | [] => []
  | l :: rest => l :: dedupLeftFrom l rest
where
  dedupLeftFrom (prev : JStr) : List JStr → List JStr
    | [] => []
    | l :: rest => if l = prev then dedupLeftFrom prev rest else l :: dedupLeftFrom l rest

/-- A review finding giving rationale context (`originFinding`). -/
structure Finding where
  title : Option JStr
  details : Option JStr
deriving DecidableEq, Repr

/-- Embedding of `ReviewSuggestion` (file/line fields are the anchor used to read the
original segment, which is supplied separately as the collaborator's answer). -/
structure ReviewSuggestion where
  file : JStr
  startLine : Nat
  endLine : Nat
  comment : JStr
  replacement : JStr
  originFinding : Option Finding := none
deriving DecidableEq, Repr

/-- Embedding of `sanitizeSuggestionReplacement` (lines 46-101).  `originalSegment` is the
result of `readOriginalSegment(suggestion.file, startLine, endLine)`: `none`
models an unreadable file or invalid range. -/
def sanitizeSuggestionReplacement (suggestion : ReviewSuggestion)
    (originalSegment : Option JStr) : JStr :=
  let normalized := stripTrailingWs (normalizeLineEndings suggestion.replacement)
  if normalized = [] then normalized
  else
    match originalSegment with
    | none => normalized
    | some seg =>
      let trimmedOriginal := jsTrim (normalizeLineEndings seg)
      if trimmedOriginal = [] then normalized
      else
        let normalized1 :=
          match stripSuffixPattern trimmedOriginal normalized with
          | some kept =>
            let candidate := jsTrimEnd kept
            if candidate.length > 0 then candidate else normalized
          | none => normalized
        let originalLines := (splitOnNl (normalizeLineEndings trimmedOriginal)).map jsTrimEnd
        let sanitizedLines := splitOnNl (normalizeLineEndings normalized1)
        let filteredLines :=
          (sanitizedLines.map (stripOriginalFragments · originalLines)).filter
            (keepSanitizedLine · originalLines)
        let dedupedLines := dedupLeft filteredLines
        if dedupedLines.length > 0 then stripTrailingWs (joinNl dedupedLines)
        else normalized1

/-- Embedding of `buildSuggestionContextLines` (lines 26-44). -/
def buildSuggestionContextLines (suggestion : ReviewSuggestion) : List JStr :=
  let contextLines :=
    match suggestion.originFinding with
    | some finding =>
      let headerParts :=
        match finding.title with
        | some title => if title = [] then [] else [title]
        | none => []
      let withHeader := if headerParts.length > 0 then [List.intercalate [' '] headerParts] else []
      match finding.details with
      | some details => if details = [] then withHeader else withHeader ++ [details]
      | none => withHeader
    | none => []
  contextLines ++ [suggestion.comment]

/-- Embedding of `renderReplacementForSuggestion` (lines 103-106). -/
def renderReplacementForSuggestion (replacement : JStr) : JStr :=
  (normalizeLineEndings replacement).flatMap fun c =>
    if c = '\n' then ['\r', '\n'] else [c]

/-- Embedding of `RenderedSuggestion`. -/
structure RenderedSuggestion where
  body : JStr
  sanitizedReplacement : JStr
deriving DecidableEq, Repr

/-- Embedding of `renderSuggestionComment` (lines 11-24). -/
def renderSuggestionComment (suggestion : ReviewSuggestion)
    (originalSegment : Option JStr) : Option RenderedSuggestion :=
  let sanitizedReplacement := sanitizeSuggestionReplacement suggestion originalSegment
  if sanitizedReplacement = [] then none
  else
    let contextLines := buildSuggestionContextLines suggestion
    let renderedReplacement := renderReplacementForSuggestion sanitizedReplacement
    let body :=
      List.intercalate ('\n' :: '\n' :: [])
        (contextLines.filter fun line => line ≠ [] && jsTrim line ≠ []) ++
      ('\n' :: '\n' :: []) ++ "```suggestion\n".data ++ renderedReplacement ++ "\n```".data
    some { body := body, sanitizedReplacement := sanitizedReplacement }

/-! ### Comment signatures (src/commentSignatures.ts) -/

/-- Decimal digit character. -/
def digitChar : Nat → Char
  | 0 => '0' | 1 => '1' | 2 => '2' | 3 => '3' | 4 => '4'
  | 5 => '5' | 6 => '6' | 7 => '7' | 8 => '8' | 9 => '9'
  | _ => '?'

/-- Numeric digit value of a decimal digit character. -/
def digitVal (c : Char) : Nat :=
  if c = '0' then 0 else if c = '1' then 1 else if c = '2' then 2
  else if c = '3' then 3 else if c = '4' then 4 else if c = '5' then 5
  else if c = '6' then 6 else if c = '7' then 7 else if c = '8' then 8
  else if c = '9' then 9 else 0

/-- Fuel-driven decimal rendering worker. -/
def natReprGo : Nat → Nat → JStr
  | 0, _ => []
  | fuel + 1, n => if n < 10 then [digitChar n] else natReprGo fuel (n / 10) ++ [digitChar (n % 10)]

/-- Decimal rendering of a natural number, as produced by a JavaScript
template literal for a nonnegative integer. -/
def natRepr (n : Nat) : JStr := natReprGo (n + 1) n

/-- Evaluate a digit string back to a number (left inverse of `natRepr`). -/
def reprToNat (s : JStr) : Nat := s.foldl (fun acc c => acc * 10 + digitVal c) 0

/-- Embedding of `normalizeThreadFilePath` (commentSignatures.ts lines 3-6):
`file.replace(/\\/g, "/").replace(/^\/+/, "")` prefixed with `/`. -/
def normalizeThreadFilePath (file : JStr) : JStr :=
  '/' :: (file.map fun c => if c = '\\' then '/' else c).dropWhile (· = '/')

/-- Embedding of `buildCommentSignature` (commentSignatures.ts lines 8-36).  The optional
`number` fields are modelled as `Option Nat` (Azure DevOps line numbers are
nonnegative integers, so the `Number.isFinite` guard always holds on present
values and `undefined` maps to `none`). -/
def buildCommentSignature (content : Option JStr) (filePath : Option JStr)
    (startLine endLine : Option Nat) : Option JStr :=
  match content with
  | none => none
  | some c =>
    if c = [] then none
    else
      let normalizedContent := stripTrailingWs (jsTrim c)
      if normalizedContent.length = 0 then none
      else
        let normalizedPath :=
          match filePath with
          | some fp => if fp = [] then [] else normalizeThreadFilePath fp
          | none => []
        let start := startLine.getD 0
        let stop :=
          match endLine with
          | some e => e
          | none => startLine.getD 0
        some (normalizedPath ++ "::".data ++ natRepr start ++ "::".data ++
          natRepr stop ++ "::".data ++ normalizedContent)

/-! ### Hidden review-head marker (src/azure.ts = unnamed part 006) -/

/-- Deterministic matcher for one occurrence of
`/<!--\s*codex-review-head:\s*([0-9a-f]{7,40})\s*-->/i` starting at the head
of the input.  Because the whitespace, hex-digit and literal character sets
are pairwise disjoint at every juncture of the pattern, greedy matching with
backtracking has exactly one candidate decomposition, so this scanner is
equivalent to the JavaScript engine's semantics for this pattern: a match
requires the maximal hex run (of length 7..40) to be followed, after optional
whitespace, by the closing literal.  Returns the captured hex group and the
remainder of the input after the match. -/
def matchMarkerAt (s : JStr) : Option (JStr × JStr) :=
  match dropLitCI "<!--".data s with
  | none => none
  | some s1 =>
    let s2 := s1.dropWhile isJsWs
    match dropLitCI "codex-review-head:".data s2 with
    | none => none
    | some s3 =>
      let s4 := s3.dropWhile isJsWs
      let hex := s4.takeWhile isHexDigit
      let s5 := s4.dropWhile isHexDigit
      if 7 ≤ hex.length && hex.length ≤ 40 then
        let s6 := s5.dropWhile isJsWs
        match dropLitCI "-->".data s6 with
        | none => none
        | some s7 => some (hex, s7)
      else none

/-- Fuel-driven global replacement of every marker occurrence with the empty
string (`content.replace(REVIEW_HEAD_REGEX_GLOBAL, "")`): leftmost-match
scanning, resuming after each match. -/
def stripMarkersGo : Nat → JStr → JStr
  | 0, s => s
  | _ + 1, [] => []
  | fuel + 1, c :: t =>
    match matchMarkerAt (c :: t) with
    | some (_, rest) => stripMarkersGo fuel rest
    | none => c :: stripMarkersGo fuel t

/-- JavaScript `content.replace(REVIEW_HEAD_REGEX_GLOBAL, "")`. -/
def stripMarkersAll (s : JStr) : JStr := stripMarkersGo (s.length + 1) s

/-- Embedding of `stripReviewMetadata` (part 006 lines 18-20). -/
def stripReviewMetadata (content : JStr) : JStr := jsTrim (stripMarkersAll content)

/-- Embedding of `extractReviewHeadSha` (part 006 lines 13-16): first match's capture
group, or `none`. -/
def extractReviewHeadSha : JStr → Option JStr
  | [] => none
  | c :: t =>
    match matchMarkerAt (c :: t) with
    | some (hex, _) => some hex
    | none => extractReviewHeadSha t

/-- Predicate: `m` is a complete hidden-marker string: the marker regex matches it and
consumes it entirely. -/
def IsFullMarker (m : JStr) : Prop := ∃ hex, matchMarkerAt m = some (hex, [])

/-! ### Diff parsing and budgeting (src/git.ts) -/

/-- Embedding of `FileDiff`. -/
structure FileDiff where
  path : JStr
  diff : JStr
deriving DecidableEq, Repr

/-- JavaScript `text.split(/\r?\n/)`. -/
def splitCRLF : JStr → List JStr
  | [] => [[]]
  | '\r' :: '\n' :: t => [] :: splitCRLF t
  | '\n' :: t => [] :: splitCRLF t
  | c :: t =>
    match splitCRLF t with
    | h :: r => (c :: h) :: r
    | [] => [[c]]

/-- JavaScript `line.split(" ")`. -/
def splitOnSpace : JStr → List JStr
  | [] => [[]]
  | ' ' :: t => [] :: splitOnSpace t
  | c :: t =>
    match splitOnSpace t with
    | h :: r => (c :: h) :: r
    | [] => [[c]]

/-- The provisional path of a `diff --git ` header line: the header's third
space-token stripped of an `a/` prefix, or `unknown` when the header has
fewer than four space-tokens. -/
def headerProvisionalPath (line : JStr) : JStr :=
  let parts := splitOnSpace line
  if parts.length ≥ 4 then
    let pathToken := (parts.get? 2).getD []
    if "a/".data.isPrefixOf pathToken then pathToken.drop 2 else pathToken
  else "unknown".data

/-- Parser state of `parseUnifiedDiff`: accumulated records, the current
provisional path, and the current accumulated lines. -/
structure ParseState where
  files : List FileDiff
  currentPath : Option JStr
  currentLines : List JStr
deriving DecidableEq, Repr

/-- Embedding of `flushCurrent`: push a record when the current path is truthy and lines
are present; only then is the line accumulator cleared. -/
def flushCurrent (st : ParseState) : ParseState :=
  match st.currentPath with
  | some p =>
    if p ≠ [] && st.currentLines ≠ [] then
      { st with files := st.files ++ [⟨p, joinNl st.currentLines⟩], currentLines := [] }
    else st
  | none => st

/-- The body of the line loop of `parseUnifiedDiff`. -/
def parseDiffStep (st : ParseState) (line : JStr) : ParseState :=
  if "diff --git ".data.isPrefixOf line then
    let st1 := flushCurrent st
    { st1 with currentPath := some (headerProvisionalPath line), currentLines := [line] }
  else
    let st1 := { st with currentLines := st.currentLines ++ [line] }
    if "+++ b/".data.isPrefixOf line then
      { st1 with currentPath := some (jsTrim (line.drop 6)) }
    else st1

/-- Embedding of `parseUnifiedDiff` (git.ts lines 262-301); a thrown `ReviewError` is
modelled as `Except.error` carrying the message. -/
def parseUnifiedDiff (diffText : JStr) : Except JStr (List FileDiff) :=
  let final := flushCurrent ((splitCRLF diffText).foldl parseDiffStep ⟨[], none, []⟩)
  if final.files = [] then .error "No file diffs detected in diff payload.".data
  else .ok final.files

/-- Total diff character length of a list of file diffs. -/
def totalDiffChars (files : List FileDiff) : Nat :=
  files.foldl (fun acc f => acc + f.diff.length) 0

/-- The truncated-diff marker appended to a sliced file. -/
def truncMarker : JStr := "\n[... diff truncated ...]".data

/-- The budget loop of `truncateFiles`: keep whole files while they fit;
slice the file that crosses the boundary (after which the loop breaks,
dropping all later files); break immediately when the budget is spent. -/
def truncLoop : List FileDiff → Nat → List FileDiff
  | [], _ => []
  | f :: rest, remaining =>
    if remaining = 0 then []
    else if f.diff.length ≤ remaining then f :: truncLoop rest (remaining - f.diff.length)
    else [⟨f.path, f.diff.take remaining ++ truncMarker⟩]

/-- Embedding of `truncateFiles` (git.ts lines 303-331).  `maxFiles` and `maxChars` are
modelled as naturals (the CLI schema validates both as positive integers). -/
def truncateFiles (files : List FileDiff) (maxFiles maxChars : Nat) :
    Except JStr (List FileDiff) :=
  let trimmed := files.take maxFiles
  if totalDiffChars trimmed ≤ maxChars then .ok trimmed
  else
    let result := truncLoop trimmed maxChars
    if result = [] then
      .error "Diff too large to include in prompt. Increase max-diff-chars.".data
    else .ok result

/-! ### Incremental tracker (src/index.ts) -/

/-- Embedding of `ExistingCommentSummary` (part 006 lines 98-107). -/
structure ExistingCommentSummary where
  content : JStr
  rawContent : JStr
  reviewHeadSha : Option JStr := none
  filePath : Option JStr := none
  startLine : Option Nat := none
  endLine : Option Nat := none
  threadId : Option Nat := none
  commentId : Option Nat := none
deriving DecidableEq, Repr

/-- Truthiness of `summary.reviewHeadSha` (a present, nonempty string). -/
def hasMarkerSha (s : ExistingCommentSummary) : Bool :=
  match s.reviewHeadSha with
  | some h => !h.isEmpty
  | none => false

/-- The sort key `commentId ?? 0` of the comparator in
`findLatestReviewedSha`. -/
def commentIdKey (s : ExistingCommentSummary) : Nat := s.commentId.getD 0

/-- Stable insertion (descending by `commentIdKey`): `x` is placed after
every element whose key is at least `x`'s. -/
def insertByIdDesc (x : ExistingCommentSummary) :
    List ExistingCommentSummary → List ExistingCommentSummary
  | [] => [x]
  | y :: rest =>
    if commentIdKey x ≤ commentIdKey y then y :: insertByIdDesc x rest
    else x :: y :: rest

/-- Stable sort, descending by `commentIdKey`: the unique stable ordering
produced by `Array.prototype.sort` (required stable by the language
specification) under the comparator `(b.commentId ?? 0) - (a.commentId ?? 0)`. -/
def sortByIdDesc : List ExistingCommentSummary → List ExistingCommentSummary
  | [] => []
  | x :: rest => insertByIdDesc x (sortByIdDesc rest)

/-- Embedding of `findLatestReviewedSha` (index.ts lines 140-145). -/
def findLatestReviewedSha (summaries : List ExistingCommentSummary) : Option JStr :=
  let candidates := sortByIdDesc (summaries.filter hasMarkerSha)
  candidates.head?.bind (·.reviewHeadSha)

/-! ### Specification-level view of diff parsing (spec section 4.1)

The following definitions restate the parser contract in the spec's own
terms — scan lines, open a record at each `diff --git ` header, override the
provisional path with the last `+++ b/` target path — so the line loop of
`parseUnifiedDiff` can be proved equal to them. -/

/-- A `diff --git ` header line. -/
def isHeaderLine (line : JStr) : Bool := "diff --git ".data.isPrefixOf line

/-- A `+++ b/` target-path line. -/
def isPlusBLine (line : JStr) : Bool := "+++ b/".data.isPrefixOf line

/-- The trimmed path carried by the last `+++ b/` line of a line block. -/
def lastPlusPath : List JStr → Option JStr
  | [] => none
  | line :: rest =>
    match lastPlusPath rest with
    | some p => some p
    | none => if isPlusBLine line then some (jsTrim (line.drop 6)) else none

/-- Split a line list into the preamble (lines before the first header) and
the sections, each a header line together with its following body lines. -/
def splitSections : List JStr → List JStr × List (JStr × List JStr)
  | [] => ([], [])
  | line :: rest =>
    let (pre, secs) := splitSections rest
    if isHeaderLine line then ([], (line, pre) :: secs)
    else (line :: pre, secs)

/-- The path of a section: the last `+++ b/` target path when present,
otherwise the header's provisional path. -/
def sectionPath (header : JStr) (body : List JStr) : JStr :=
  match lastPlusPath body with
  | some p => p
  | none => headerProvisionalPath header

/-- The record contributed by a section (none when its path is empty). -/
def sectionRecord (header : JStr) (body : List JStr) : List FileDiff :=
  let p := sectionPath header body
  if p = [] then [] else [⟨p, joinNl (header :: body)⟩]

/-- The record contributed by the preamble: present only when a `+++ b/`
line gave it a nonempty path. -/
def preambleRecord (pre : List JStr) : List FileDiff :=
  match lastPlusPath pre with
  | some p => if p = [] then [] else [⟨p, joinNl pre⟩]
  | none => []

/-- Records of a section list, in order. -/
def sectionsRecords (secs : List (JStr × List JStr)) : List FileDiff :=
  secs.foldr (fun s acc => sectionRecord s.1 s.2 ++ acc) []

/-- The spec-level result of parsing: the preamble record followed by the
section records, in the insertion order of the source diff. -/
def specRecords (diffText : JStr) : List FileDiff :=
  preambleRecord (splitSections (splitCRLF diffText)).1 ++
    sectionsRecords (splitSections (splitCRLF diffText)).2

/-- The record the parser state would flush. -/
def flushRecord (cp : Option JStr) (cl : List JStr) : List FileDiff :=
  match cp with
  | some p => if p ≠ [] && cl ≠ [] then [⟨p, joinNl cl⟩] else []
  | none => []

/-- The path the parser state carries after consuming a block of non-header
lines. -/
def updPath (cp : Option JStr) (pre : List JStr) : Option JStr :=
  match lastPlusPath pre with
  | some p => some p
  | none => cp

/-- The records still to be produced from parser state `(cp, cl)` on the
remaining lines. -/
def contFiles (cp : Option JStr) (cl : List JStr) : List JStr → List FileDiff
  | [] => flushRecord cp cl
  | line :: rest =>
    if isHeaderLine line then
      flushRecord cp cl ++ contFiles (some (headerProvisionalPath line)) [line] rest
    else
      contFiles (if isPlusBLine line then some (jsTrim (line.drop 6)) else cp)
        (cl ++ [line]) rest

/-! ### Whitespace and normalization lemmas -/

/-- Every character of the string is JavaScript whitespace. -/
def AllWs (l : JStr) : Prop := ∀ c ∈ l, isJsWs c = true

instance (l : JStr) : Decidable (AllWs l) := List.decidableBAll _ l

theorem jsTrimEnd_eq_nil_iff {l : JStr} : jsTrimEnd l = [] ↔ AllWs l := by
  unfold jsTrimEnd AllWs
  rw [List.reverse_eq_nil_iff, List.dropWhile_eq_nil_iff]
  constructor
  · intro h c hc
    exact h c (List.mem_reverse.mpr hc)
  · intro h c hc
    exact h c (List.mem_reverse.mp hc)

theorem mem_jsTrimEnd {l : JStr} {c : Char} (h : c ∈ jsTrimEnd l) : c ∈ l := by
  unfold jsTrimEnd at h
  exact List.mem_reverse.mp (List.Sublist.mem (List.mem_reverse.mp h) (List.dropWhile_sublist _))

theorem allWs_cons {c : Char} {t : JStr} :
    AllWs (c :: t) ↔ isJsWs c = true ∧ AllWs t := List.forall_mem_cons

theorem replaceCRLF_cons (c : Char) (t : JStr)
    (h : ∀ t1, c = '\r' → t = '\n' :: t1 → False) :
    replaceCRLF (c :: t) = c :: replaceCRLF t := by
  rw [replaceCRLF.eq_def]
  split
  · rename_i heq
    exact absurd heq (by simp)
  · rename_i t1 heq
    rw [List.cons.injEq] at heq
    exact absurd heq.2 (fun h2 => h t1 heq.1 h2)
  · rename_i c1 t1 hne heq
    rw [List.cons.injEq] at heq
    rw [heq.1, heq.2]

theorem allWs_replaceCRLF_iff {l : JStr} : AllWs (replaceCRLF l) ↔ AllWs l := by
  induction l using replaceCRLF.induct with
  | case1 => simp [replaceCRLF]
  | case2 t ih =>
    rw [show replaceCRLF ('\r' :: '\n' :: t) = '\n' :: replaceCRLF t from rfl]
    rw [allWs_cons, allWs_cons, allWs_cons, ih]
    have h1 : isJsWs '\r' = true := by decide
    have h2 : isJsWs '\n' = true := by decide
    simp [h1, h2]
  | case3 c t h ih =>
    rw [replaceCRLF_cons c t h, allWs_cons, allWs_cons, ih]

theorem isJsWs_normalizeChar (a : Char) :
    isJsWs (if a = '\r' then '\n' else a) = isJsWs a := by
  by_cases h : a = '\r'
  · simp [h]; decide
  · simp [h]

theorem allWs_normalize_iff {l : JStr} : AllWs (normalizeLineEndings l) ↔ AllWs l := by
  unfold normalizeLineEndings
  rw [show AllWs ((replaceCRLF l).map fun c => if c = '\r' then '\n' else c) ↔
      AllWs (replaceCRLF l) from ?_]
  · exact allWs_replaceCRLF_iff
  · unfold AllWs
    rw [List.forall_mem_map]
    exact forall_congr' fun a => forall_congr' fun _ => by rw [isJsWs_normalizeChar]

theorem not_allWs_iff {l : JStr} : ¬ AllWs l ↔ ∃ c ∈ l, isJsWs c = false := by
  unfold AllWs
  push_neg
  simp [Bool.not_eq_true]

theorem stripTrailingWs_eq_nil_iff {l : JStr} : stripTrailingWs l = [] ↔ AllWs l :=
  jsTrimEnd_eq_nil_iff

theorem mem_dedupLeftFrom {x prev : JStr} :
    ∀ {l : List JStr}, x ∈ dedupLeft.dedupLeftFrom prev l → x ∈ l := by
  intro l
  induction l generalizing prev with
  | nil => intro h; exact absurd h (by simp [dedupLeft.dedupLeftFrom])
  | cons a rest ih =>
    intro h
    rw [dedupLeft.dedupLeftFrom] at h
    split at h
    · exact List.mem_cons_of_mem a (ih h)
    · rcases List.mem_cons.mp h with rfl | h2
      · exact List.mem_cons_self x rest
      · exact List.mem_cons_of_mem a (ih h2)

theorem mem_dedupLeft {x : JStr} {l : List JStr} (h : x ∈ dedupLeft l) : x ∈ l := by
  cases l with
  | nil => exact absurd h (by simp [dedupLeft])
  | cons a rest =>
    rw [dedupLeft] at h
    rcases List.mem_cons.mp h with rfl | h2
    · exact List.mem_cons_self x rest
    · exact List.mem_cons_of_mem a (mem_dedupLeftFrom h2)

theorem keepSanitizedLine_not_allWs {l : JStr} {origs : List JStr}
    (hk : keepSanitizedLine l origs = true) : ¬ AllWs l := by
  intro hAll
  have h0 : jsTrimEnd l = [] := jsTrimEnd_eq_nil_iff.mpr hAll
  simp [keepSanitizedLine, h0] at hk

theorem mem_joinNl {lines : List JStr} {a : JStr} {c : Char}
    (ha : a ∈ lines) (hc : c ∈ a) : c ∈ joinNl lines := by
  induction lines with
  | nil => exact absurd ha (by simp)
  | cons l rest ih =>
    rcases List.mem_cons.mp ha with rfl | h2
    · cases rest with
      | nil => exact hc
      | cons r rs => exact List.mem_append_left _ hc
    · cases rest with
      | nil => exact absurd h2 (by simp)
      | cons r rs =>
        exact List.mem_append_right _ (List.mem_cons_of_mem _ (ih h2))

theorem stripTrailingWs_joinNl_ne_nil (origs : List JStr) {lines : List JStr}
    (hk : ∀ l ∈ lines, keepSanitizedLine l origs = true) (hne : lines ≠ []) :
    stripTrailingWs (joinNl lines) ≠ [] := by
  cases lines with
  | nil => exact absurd rfl hne
  | cons l rest =>
    have hkl : keepSanitizedLine l origs = true := hk l (List.mem_cons_self l rest)
    have hnl : ¬ AllWs l := keepSanitizedLine_not_allWs hkl
    rcases not_allWs_iff.mp hnl with ⟨c, hc, hcf⟩
    rw [Ne, stripTrailingWs_eq_nil_iff]
    intro hAll
    have := hAll c (mem_joinNl (List.mem_cons_self l rest) hc)
    rw [this] at hcf
    exact absurd hcf (by simp)

theorem sanitizeSuggestionReplacement_ne_nil (sugg : ReviewSuggestion)
    (seg : Option JStr) (h : ¬ AllWs sugg.replacement) :
    sanitizeSuggestionReplacement sugg seg ≠ [] := by
  have hn : stripTrailingWs (normalizeLineEndings sugg.replacement) ≠ [] := by
    rw [Ne, stripTrailingWs_eq_nil_iff, allWs_normalize_iff]
    exact h
  simp only [sanitizeSuggestionReplacement]
  split
  · exact hn
  · split
    · exact hn
    · split
      · exact hn
      · split
        · rename_i hlen
          apply stripTrailingWs_joinNl_ne_nil (List.map jsTrimEnd
            (splitOnNl (normalizeLineEndings (jsTrim (normalizeLineEndings _)))))
          · intro l hl
            exact (List.mem_filter.mp (mem_dedupLeft hl)).2
          · intro hnil
            rw [hnil] at hlen
            exact absurd hlen (by simp)
        · split
          · split
            · rename_i hlen2
              intro hnil
              rw [hnil] at hlen2
              exact absurd hlen2 (by simp)
            · exact hn
          · exact hn

theorem sanitizeSuggestionReplacement_of_allWs (sugg : ReviewSuggestion)
    (seg : Option JStr) (h : AllWs sugg.replacement) :
    sanitizeSuggestionReplacement sugg seg = [] := by
  have hn : stripTrailingWs (normalizeLineEndings sugg.replacement) = [] := by
    rw [stripTrailingWs_eq_nil_iff, allWs_normalize_iff]
    exact h
  simp [sanitizeSuggestionReplacement, hn]

theorem sanitize_eq_nil_iff (sugg : ReviewSuggestion) (seg : Option JStr) :
    sanitizeSuggestionReplacement sugg seg = [] ↔ AllWs sugg.replacement := by
  constructor
  · intro hnil
    by_contra hws
    exact sanitizeSuggestionReplacement_ne_nil sugg seg hws hnil
  · exact sanitizeSuggestionReplacement_of_allWs sugg seg

theorem noCR_normalize {l : JStr} {c : Char} (hc : c ∈ normalizeLineEndings l) :
    c ≠ '\r' := by
  unfold normalizeLineEndings at hc
  rcases List.mem_map.mp hc with ⟨a, _, hfa⟩
  by_cases h : a = '\r'
  · rw [← hfa]
    simp [h]
  · rw [← hfa]
    simp [h]

theorem replaceCRLF_of_noCR {l : JStr} (h : ∀ c ∈ l, c ≠ '\r') :
    replaceCRLF l = l := by
  induction l using replaceCRLF.induct with
  | case1 => rfl
  | case2 t _ => exact absurd rfl (h '\r' (List.mem_cons_self _ _))
  | case3 c t hne ih =>
    rw [replaceCRLF_cons c t hne, ih]
    intro d hd
    exact h d (List.mem_cons_of_mem c hd)

theorem normalize_of_noCR {l : JStr} (h : ∀ c ∈ l, c ≠ '\r') :
    normalizeLineEndings l = l := by
  unfold normalizeLineEndings
  rw [replaceCRLF_of_noCR h]
  have : ∀ c ∈ l, (if c = '\r' then '\n' else c) = c := by
    intro c hc
    simp [h c hc]
  calc l.map (fun c => if c = '\r' then '\n' else c) = l.map id := List.map_congr_left this
    _ = l := List.map_id l

theorem jsTrimEnd_idem (l : JStr) : jsTrimEnd (jsTrimEnd l) = jsTrimEnd l := by
  unfold jsTrimEnd
  rw [List.reverse_reverse, List.dropWhile_idempotent]

theorem mem_stripTrailingWs {l : JStr} {c : Char} (h : c ∈ stripTrailingWs l) : c ∈ l :=
  mem_jsTrimEnd h

/-- With the original segment unavailable or blank, the sanitizer is exactly
line-ending normalization followed by trailing-whitespace stripping. -/
theorem sanitize_no_original (sugg : ReviewSuggestion) (seg : Option JStr)
    (h : seg = none ∨ ∃ s, seg = some s ∧ jsTrim (normalizeLineEndings s) = []) :
    sanitizeSuggestionReplacement sugg seg =
      stripTrailingWs (normalizeLineEndings sugg.replacement) := by
  rcases h with rfl | ⟨s, rfl, htrim⟩
  · simp [sanitizeSuggestionReplacement]
  · simp [sanitizeSuggestionReplacement, htrim]

theorem stripNorm_idem (l : JStr) :
    stripTrailingWs (normalizeLineEndings (stripTrailingWs (normalizeLineEndings l))) =
      stripTrailingWs (normalizeLineEndings l) := by
  have hnc : ∀ c ∈ stripTrailingWs (normalizeLineEndings l), c ≠ '\r' := by
    intro c hc
    exact noCR_normalize (mem_stripTrailingWs hc)
  rw [normalize_of_noCR hnc]
  exact jsTrimEnd_idem _

/-! ### Claim theorems for the sanitizer -/

/-- C5: a replacement containing at least one non-whitespace character
sanitizes to a non-empty string, and the sanitizer returns the empty string
exactly when the replacement is empty or whitespace-only — every mutation
step of `sanitizeSuggestionReplacement` is adopted only when its result is
non-empty, so emptiness can only come from an already-blank input. -/
theorem claim_C5_sanitizer_nonempty (sugg : ReviewSuggestion) (seg : Option JStr) :
    sanitizeSuggestionReplacement sugg seg = [] ↔ AllWs sugg.replacement :=
  sanitize_eq_nil_iff sugg seg

/-- C1 (counterexample): a replacement consisting entirely of lines whose
trimmed forms equal lines of the original segment does not render to `null`:
with replacement and original segment both `foo\nbar`, every replacement line
duplicates an original line, yet `renderSuggestionComment` returns a comment
(the per-line filter empties the line list, and the empty result is not
adopted, so the replacement is posted unchanged). -/
theorem claim_C1_counterexample :
    (∀ l ∈ splitOnNl (normalizeLineEndings "foo\nbar".data),
      ∃ o ∈ splitOnNl "foo\nbar".data, jsTrim o = jsTrim l) ∧
    (renderSuggestionComment
      { file := "a.ts".data, startLine := 1, endLine := 2, comment := "c".data,
        replacement := "foo\nbar".data }
      (some "foo\nbar".data)).isSome = true := by decide

/-- C1 (amended): `renderSuggestionComment` returns `null` exactly when the
replacement is empty or whitespace-only; a pure-duplication replacement with
non-whitespace content still renders a comment. -/
theorem claim_C1_amended (sugg : ReviewSuggestion) (seg : Option JStr) :
    renderSuggestionComment sugg seg = none ↔ AllWs sugg.replacement := by
  rw [← sanitize_eq_nil_iff sugg seg]
  unfold renderSuggestionComment
  constructor
  · intro h
    by_contra hne
    simp only [if_neg hne] at h
    exact absurd h (by simp)
  · intro h
    simp [h]

/-- C2 (counterexample): the sanitizer is not idempotent.  With original
segment `a b` and replacement `x a  b`, one application yields `x a b`
(whitespace collapsing), and a second application yields `x` (the collapsed
line now ends with the original fragment `a b`, which the second pass
removes). -/
theorem claim_C2_counterexample :
    sanitizeSuggestionReplacement
      { file := "a.ts".data, startLine := 1, endLine := 1, comment := "c".data,
        replacement := "x a  b".data } (some "a b".data) = "x a b".data ∧
    sanitizeSuggestionReplacement
      { file := "a.ts".data, startLine := 1, endLine := 1, comment := "c".data,
        replacement := "x a b".data } (some "a b".data) = "x".data := by decide

/-- C2 (amended): the sanitizer is idempotent whenever the original file
segment is unavailable or blank, where it reduces to line-ending
normalization plus trailing-whitespace stripping; with a non-blank original
segment a second application can strip further (see the counterexample). -/
theorem claim_C2_amended (sugg : ReviewSuggestion) (seg : Option JStr)
    (h : seg = none ∨ ∃ s, seg = some s ∧ jsTrim (normalizeLineEndings s) = []) :
    sanitizeSuggestionReplacement
      { sugg with replacement := sanitizeSuggestionReplacement sugg seg } seg =
      sanitizeSuggestionReplacement sugg seg := by
  rw [sanitize_no_original _ _ h, sanitize_no_original _ _ h]
  exact stripNorm_idem sugg.replacement

/-- Witness for C2 (amended) at a concrete suggestion with no original
segment available. -/
theorem claim_C2_amended_witness :
    sanitizeSuggestionReplacement
      { file := "a.ts".data, startLine := 1, endLine := 1, comment := "c".data,
        replacement := sanitizeSuggestionReplacement
          { file := "a.ts".data, startLine := 1, endLine := 1, comment := "c".data,
            replacement := "one\r\ntwo  ".data } none } none =
      sanitizeSuggestionReplacement
        { file := "a.ts".data, startLine := 1, endLine := 1, comment := "c".data,
          replacement := "one\r\ntwo  ".data } none :=
  claim_C2_amended
    { file := "a.ts".data, startLine := 1, endLine := 1, comment := "c".data,
      replacement := "one\r\ntwo  ".data } none (Or.inl rfl)

/-- C3: per-line fragment stripping removes a duplicated original fragment
bounded by whitespace or clause punctuation while keeping the new text:
line `theme="secondary" theme: "secondary",` against an original segment
containing the line `theme: "secondary",` becomes exactly
`theme="secondary"`. -/
theorem claim_C3_fragment_strip :
    stripOriginalFragments "theme=\"secondary\" theme: \"secondary\",".data
      ["theme: \"secondary\",".data] = "theme=\"secondary\"".data := by decide

/-- C4 (code evaluated at the failing input): the replacement line ` * @x`
is trimmed-equal to the original line ` * @x`, which is a recognized comment
line, yet the sanitizer drops it: the preserve check compares the
`trimEnd`-ed (still indented) line against trimmed originals and never
fires for an indented comment line, and the drop check then removes it. -/
theorem claim_C4_code_bug :
    (∃ o ∈ splitOnNl "line1\n * @x".data,
      jsTrim o = jsTrim " * @x".data ∧ isCommentLine (jsTrim o) = true) ∧
    sanitizeSuggestionReplacement
      { file := "a.ts".data, startLine := 1, endLine := 2, comment := "c".data,
        replacement := "new\n * @x".data } (some "line1\n * @x".data) = "new".data ∧
    ¬ " * @x".data ∈ splitOnNl (sanitizeSuggestionReplacement
      { file := "a.ts".data, startLine := 1, endLine := 2, comment := "c".data,
        replacement := "new\n * @x".data } (some "line1\n * @x".data)) := by decide

/-! ### Signature lemmas -/

theorem digitVal_digitChar {d : Nat} (h : d < 10) : digitVal (digitChar d) = d := by
  interval_cases d <;> rfl

theorem reprToNat_natReprGo : ∀ fuel n, n < fuel → reprToNat (natReprGo fuel n) = n := by
  intro fuel
  induction fuel with
  | zero => intro n h; omega
  | succ f ih =>
    intro n h
    rw [natReprGo]
    by_cases h10 : n < 10
    · rw [if_pos h10]
      simp [reprToNat, digitVal_digitChar h10]
    · rw [if_neg h10]
      have hrec : n / 10 < f := by
        have h1 : n / 10 < n := Nat.div_lt_self (by omega) (by omega)
        omega
      unfold reprToNat
      rw [List.foldl_append]
      have := ih (n / 10) hrec
      unfold reprToNat at this
      rw [this]
      simp [digitVal_digitChar (Nat.mod_lt n (by omega))]
      omega

theorem reprToNat_natRepr (n : Nat) : reprToNat (natRepr n) = n :=
  reprToNat_natReprGo (n + 1) n (by omega)

theorem natRepr_injective {m n : Nat} (h : natRepr m = natRepr n) : m = n := by
  have hm := reprToNat_natRepr m
  have hn := reprToNat_natRepr n
  rw [h, hn] at hm
  exact hm.symm

theorem jsTrimEnd_jsTrim (c : JStr) : jsTrimEnd (jsTrim c) = jsTrim c := by
  unfold jsTrim
  exact jsTrimEnd_idem _

/-- Explicit form of `buildCommentSignature` on present, non-blank inputs. -/
theorem buildCommentSignature_eq (c p : JStr) (a e : Nat)
    (hc : jsTrim c ≠ []) (hp : p ≠ []) :
    buildCommentSignature (some c) (some p) (some a) (some e) =
      some (normalizeThreadFilePath p ++ ("::".data ++ (natRepr a ++
        ("::".data ++ (natRepr e ++ ("::".data ++ jsTrim c)))))) := by
  have hcne : c ≠ [] := by
    intro hnil
    exact hc (by rw [hnil]; rfl)
  have hnorm : stripTrailingWs (jsTrim c) = jsTrim c := jsTrimEnd_jsTrim c
  have hlen : (stripTrailingWs (jsTrim c)).length ≠ 0 := by
    rw [hnorm]
    intro h0
    exact hc (List.length_eq_zero.mp h0)
  rw [hnorm] at hlen
  simp only [buildCommentSignature, if_neg hcne, if_neg hp, hnorm]
  rw [if_neg hlen]
  simp [List.append_assoc]

/-- C6 (counterexample): changing the path does not always change the
signature: the distinct paths `a.ts` and `/a.ts` normalize identically, so
with content, start and end lines fixed the signatures coincide. -/
theorem claim_C6_counterexample :
    "a.ts".data ≠ "/a.ts".data ∧
    buildCommentSignature (some "x".data) (some "a.ts".data) (some 1) (some 2) =
      buildCommentSignature (some "x".data) (some "/a.ts".data) (some 1) (some 2) := by decide

/-- C6 (amended): signature computation is deterministic, and with the other
three fields fixed the signature distinguishes the canonical forms of each
field: distinct normalized paths, distinct start lines, distinct end lines,
and distinct trimmed contents each yield distinct signatures.  Fields that
differ only in canonicalization (leading slash, backslashes, surrounding
whitespace) collide by design. -/
theorem claim_C6_amended (c c2 p p2 : JStr) (a a2 e e2 : Nat)
    (hc : jsTrim c ≠ []) (hc2 : jsTrim c2 ≠ []) (hp : p ≠ []) (hp2 : p2 ≠ []) :
    (buildCommentSignature (some c) (some p) (some a) (some e) =
      buildCommentSignature (some c) (some p) (some a) (some e)) ∧
    (normalizeThreadFilePath p ≠ normalizeThreadFilePath p2 →
      buildCommentSignature (some c) (some p) (some a) (some e) ≠
        buildCommentSignature (some c) (some p2) (some a) (some e)) ∧
    (a ≠ a2 →
      buildCommentSignature (some c) (some p) (some a) (some e) ≠
        buildCommentSignature (some c) (some p) (some a2) (some e)) ∧
    (e ≠ e2 →
      buildCommentSignature (some c) (some p) (some a) (some e) ≠
        buildCommentSignature (some c) (some p) (some a) (some e2)) ∧
    (jsTrim c ≠ jsTrim c2 →
      buildCommentSignature (some c) (some p) (some a) (some e) ≠
        buildCommentSignature (some c2) (some p) (some a) (some e)) := by
  refine ⟨rfl, ?_, ?_, ?_, ?_⟩
  · intro hne heq
    rw [buildCommentSignature_eq c p a e hc hp,
      buildCommentSignature_eq c p2 a e hc hp2, Option.some.injEq] at heq
    exact hne (List.append_cancel_right heq)
  · intro hne heq
    rw [buildCommentSignature_eq c p a e hc hp,
      buildCommentSignature_eq c p a2 e hc hp, Option.some.injEq] at heq
    have h1 := List.append_cancel_left heq
    have h2 := List.append_cancel_left h1
    exact hne (natRepr_injective (List.append_cancel_right h2))
  · intro hne heq
    rw [buildCommentSignature_eq c p a e hc hp,
      buildCommentSignature_eq c p a e2 hc hp, Option.some.injEq] at heq
    have h1 := List.append_cancel_left (List.append_cancel_left heq)
    have h2 := List.append_cancel_left (List.append_cancel_left h1)
    exact hne (natRepr_injective (List.append_cancel_right h2))
  · intro hne heq
    rw [buildCommentSignature_eq c p a e hc hp,
      buildCommentSignature_eq c2 p a e hc2 hp, Option.some.injEq] at heq
    have h1 := List.append_cancel_left (List.append_cancel_left heq)
    have h2 := List.append_cancel_left (List.append_cancel_left h1)
    exact hne (List.append_cancel_left (List.append_cancel_left h2))

/-- Witness for C6 (amended) at concrete values: content `x`, paths `/a.ts`
and `/b.ts`, lines 1, 2 versus 3, 4, and content `y`. -/
theorem claim_C6_amended_witness :
    (buildCommentSignature (some "x".data) (some "/a.ts".data) (some 1) (some 2) =
      buildCommentSignature (some "x".data) (some "/a.ts".data) (some 1) (some 2)) ∧
    (buildCommentSignature (some "x".data) (some "/a.ts".data) (some 1) (some 2) ≠
      buildCommentSignature (some "x".data) (some "/b.ts".data) (some 1) (some 2)) ∧
    (buildCommentSignature (some "x".data) (some "/a.ts".data) (some 1) (some 2) ≠
      buildCommentSignature (some "x".data) (some "/a.ts".data) (some 3) (some 2)) ∧
    (buildCommentSignature (some "x".data) (some "/a.ts".data) (some 1) (some 2) ≠
      buildCommentSignature (some "x".data) (some "/a.ts".data) (some 1) (some 4)) ∧
    (buildCommentSignature (some "x".data) (some "/a.ts".data) (some 1) (some 2) ≠
      buildCommentSignature (some "y".data) (some "/a.ts".data) (some 1) (some 2)) := by
  have h := claim_C6_amended "x".data "y".data "/a.ts".data "/b.ts".data 1 3 2 4
    (by decide) (by decide) (by decide) (by decide)
  exact ⟨h.1, h.2.1 (by decide), h.2.2.1 (by decide), h.2.2.2.1 (by decide),
    h.2.2.2.2 (by decide)⟩

/-! ### Marker-stripping lemmas -/

theorem lowerAscii_eq_lt {c : Char} (h : lowerAscii c = '<') : c = '<' := by
  unfold lowerAscii at h
  split at h
  · rename_i hu
    simp only [Bool.and_eq_true, decide_eq_true_eq, Char.le_def] at hu
    have h2 : (c.toNat + 32).isValidChar := by
      left
      have : c.val ≤ Char.val 'Z' := hu.2
      have : c.val.toNat ≤ 90 := this
      unfold Char.toNat
      omega
    have hval : (Char.ofNat (c.toNat + 32)).toNat = c.toNat + 32 := by
      rw [Char.ofNat, dif_pos h2]
      rfl
    have h60 := congrArg Char.toNat h
    rw [hval] at h60
    have hA : (65 : UInt32) ≤ c.val := hu.1
    have : (65 : Nat) ≤ c.val.toNat := hA
    have hlt : Char.toNat '<' = 60 := rfl
    rw [hlt] at h60
    unfold Char.toNat at h60 this
    omega
  · exact h

theorem dropLitCI_length : ∀ (lit s r : JStr), dropLitCI lit s = some r →
    r.length + lit.length = s.length := by
  intro lit
  induction lit with
  | nil =>
    intro s r h
    simp only [dropLitCI, Option.some.injEq] at h
    rw [h]
    simp
  | cons l lt ih =>
    intro s r h
    cases s with
    | nil => exact absurd h (by simp [dropLitCI])
    | cons c ct =>
      simp only [dropLitCI] at h
      split at h
      · have := ih ct r h
        simp only [List.length_cons]
        omega
      · exact absurd h (by simp)

theorem dropLitCI_append (m' : JStr) : ∀ (lit t : JStr),
    (∀ l ∈ lit, lowerAscii '<' ≠ l) →
    dropLitCI lit (t ++ '<' :: m') = (dropLitCI lit t).map (· ++ '<' :: m') := by
  intro lit
  induction lit with
  | nil => intro t _; simp [dropLitCI]
  | cons l lt ih =>
    intro t hl
    cases t with
    | nil =>
      simp only [List.nil_append, dropLitCI]
      rw [if_neg (hl l (List.mem_cons_self l lt))]
      rfl
    | cons c ct =>
      rw [List.cons_append]
      simp only [dropLitCI]
      split
      · exact ih ct fun l2 h2 => hl l2 (List.mem_cons_of_mem l h2)
      · rfl

theorem dropLitCI_open_append (m' t : JStr) (ht : t ≠ []) :
    dropLitCI "<!--".data (t ++ '<' :: m') =
      (dropLitCI "<!--".data t).map (· ++ '<' :: m') := by
  cases t with
  | nil => exact absurd rfl ht
  | cons c ct =>
    rw [List.cons_append]
    show dropLitCI ('<' :: "!--".data) (c :: (ct ++ '<' :: m')) = _
    simp only [dropLitCI]
    split
    · exact dropLitCI_append m' "!--".data ct (by decide)
    · rfl

theorem dropWhile_append_lt {p : Char → Bool} (hp : p '<' = false) (m' : JStr) :
    ∀ t, List.dropWhile p (t ++ '<' :: m') = List.dropWhile p t ++ '<' :: m' := by
  intro t
  induction t with
  | nil => simp [List.dropWhile_cons, hp]
  | cons c ct ih =>
    by_cases hc : p c <;> simp [List.dropWhile_cons, hc, ih]

theorem takeWhile_append_lt {p : Char → Bool} (hp : p '<' = false) (m' : JStr) :
    ∀ t, List.takeWhile p (t ++ '<' :: m') = List.takeWhile p t := by
  intro t
  induction t with
  | nil => simp [List.takeWhile_cons, hp]
  | cons c ct ih =>
    by_cases hc : p c <;> simp [List.takeWhile_cons, hc, ih]

theorem matchMarkerAt_append (m' t : JStr) (ht : t ≠ []) :
    matchMarkerAt (t ++ '<' :: m') =
      (matchMarkerAt t).map (fun q => (q.1, q.2 ++ '<' :: m')) := by
  unfold matchMarkerAt
  rw [dropLitCI_open_append m' t ht]
  cases h1 : dropLitCI "<!--".data t with
  | none => rfl
  | some s1 =>
    simp only [Option.map_some']
    rw [dropWhile_append_lt (by decide) m' s1]
    rw [dropLitCI_append m' "codex-review-head:".data _ (by decide)]
    cases h3 : dropLitCI "codex-review-head:".data (List.dropWhile isJsWs s1) with
    | none => rfl
    | some s3 =>
      simp only [Option.map_some']
      rw [dropWhile_append_lt (by decide) m' s3]
      rw [takeWhile_append_lt (by decide) m' (List.dropWhile isJsWs s3)]
      rw [dropWhile_append_lt (p := isHexDigit) (by decide) m' (List.dropWhile isJsWs s3)]
      split
      · rw [dropWhile_append_lt (by decide) m' (List.dropWhile isHexDigit (List.dropWhile isJsWs s3))]
        rw [dropLitCI_append m' "-->".data _ (by decide)]
        cases h7 : dropLitCI "-->".data
            (List.dropWhile isJsWs (List.dropWhile isHexDigit (List.dropWhile isJsWs s3))) with
        | none => rfl
        | some s7 => rfl
      · rfl

theorem dropLitCI_open_head {m s1 : JStr} (h : dropLitCI "<!--".data m = some s1) :
    ∃ mt, m = '<' :: mt := by
  cases m with
  | nil => exact absurd h (by simp [dropLitCI])
  | cons c ct =>
    refine ⟨ct, ?_⟩
    have h2 : dropLitCI ('<' :: "!--".data) (c :: ct) = some s1 := h
    simp only [dropLitCI] at h2
    split at h2
    · rename_i hc
      rw [lowerAscii_eq_lt hc]
    · exact absurd h2 (by simp)

theorem matchMarkerAt_length {s hex r : JStr} (h : matchMarkerAt s = some (hex, r)) :
    r.length < s.length := by
  unfold matchMarkerAt at h
  cases h1 : dropLitCI "<!--".data s with
  | none => rw [h1] at h; exact absurd h (by simp)
  | some s1 =>
    rw [h1] at h
    simp only at h
    have e1 := dropLitCI_length _ _ _ h1
    have e2 : (List.dropWhile isJsWs s1).length ≤ s1.length :=
      (List.dropWhile_sublist _).length_le
    cases h3 : dropLitCI "codex-review-head:".data (List.dropWhile isJsWs s1) with
    | none => rw [h3] at h; exact absurd h (by simp)
    | some s3 =>
      rw [h3] at h
      simp only at h
      have e3 := dropLitCI_length _ _ _ h3
      have e4 : (List.dropWhile isJsWs s3).length ≤ s3.length :=
        (List.dropWhile_sublist _).length_le
      have e5 : (List.dropWhile isHexDigit (List.dropWhile isJsWs s3)).length ≤
          (List.dropWhile isJsWs s3).length := (List.dropWhile_sublist _).length_le
      have e6 : (List.dropWhile isJsWs
            (List.dropWhile isHexDigit (List.dropWhile isJsWs s3))).length ≤
          (List.dropWhile isHexDigit (List.dropWhile isJsWs s3)).length :=
        (List.dropWhile_sublist _).length_le
      split at h
      · cases h7 : dropLitCI "-->".data (List.dropWhile isJsWs
            (List.dropWhile isHexDigit (List.dropWhile isJsWs s3))) with
        | none => rw [h7] at h; exact absurd h (by simp)
        | some s7 =>
          rw [h7] at h
          have e7 := dropLitCI_length _ _ _ h7
          simp only [Option.some.injEq, Prod.mk.injEq] at h
          rw [← h.2]
          simp only [List.length_cons, String.length] at e1 e3 e7
          omega
      · exact absurd h (by simp)

theorem stripMarkersGo_fuel : ∀ f1 f2 s, s.length ≤ f1 → s.length ≤ f2 →
    stripMarkersGo f1 s = stripMarkersGo f2 s := by
  intro f1
  induction f1 with
  | zero =>
    intro f2 s hs1 _
    have : s = [] := List.length_eq_zero.mp (by omega)
    subst this
    cases f2 <;> rfl
  | succ f ih =>
    intro f2 s hs1 hs2
    cases s with
    | nil => cases f2 <;> rfl
    | cons c t =>
      cases f2 with
      | zero => simp at hs2
      | succ f2' =>
        simp only [stripMarkersGo]
        cases hm : matchMarkerAt (c :: t) with
        | some p =>
          have hlen := matchMarkerAt_length hm
          simp only [List.length_cons] at hs1 hs2 hlen
          exact ih f2' p.2 (by omega) (by omega)
        | none =>
          simp only [List.length_cons] at hs1 hs2
          rw [ih f2' t (by omega) (by omega)]

theorem isFullMarker_head {m : JStr} (hm : IsFullMarker m) : ∃ mt, m = '<' :: mt := by
  rcases hm with ⟨hex, h⟩
  unfold matchMarkerAt at h
  cases hd : dropLitCI "<!--".data m with
  | none => rw [hd] at h; exact absurd h (by simp)
  | some s1 => exact dropLitCI_open_head hd

theorem go_eq_stripMarkersAll (f : Nat) (s : JStr) (h : s.length ≤ f) :
    stripMarkersGo f s = stripMarkersAll s :=
  stripMarkersGo_fuel f (s.length + 1) s h (by omega)

theorem stripMarkersAll_cons_some {c : Char} {t : JStr} {q : JStr × JStr}
    (h : matchMarkerAt (c :: t) = some q) :
    stripMarkersAll (c :: t) = stripMarkersAll q.2 := by
  have hlen : q.2.length < t.length + 1 := by
    have := matchMarkerAt_length h
    simpa using this
  unfold stripMarkersAll
  simp only [List.length_cons, stripMarkersGo, h]
  exact go_eq_stripMarkersAll _ _ (by omega)

theorem stripMarkersAll_cons_none {c : Char} {t : JStr}
    (h : matchMarkerAt (c :: t) = none) :
    stripMarkersAll (c :: t) = c :: stripMarkersAll t := by
  unfold stripMarkersAll
  simp only [List.length_cons, stripMarkersGo, h]

theorem stripMarkersAll_marker {m : JStr} (hm : IsFullMarker m) :
    stripMarkersAll m = [] := by
  obtain ⟨mt, rfl⟩ := isFullMarker_head hm
  rcases hm with ⟨hex, h⟩
  rw [stripMarkersAll_cons_some (q := (hex, [])) h]
  rfl

theorem stripMarkersAll_append_aux {mt : JStr} (hm : IsFullMarker ('<' :: mt)) :
    ∀ (n : Nat) (c : JStr), c.length ≤ n →
      stripMarkersAll (c ++ '<' :: mt) = stripMarkersAll c := by
  intro n
  induction n with
  | zero =>
    intro c hc
    have hnil : c = [] := List.length_eq_zero.mp (by omega)
    subst hnil
    rw [List.nil_append, stripMarkersAll_marker hm]
    rfl
  | succ k ih =>
    intro c hc
    cases c with
    | nil =>
      rw [List.nil_append, stripMarkersAll_marker hm]
      rfl
    | cons ch t =>
      have hsplit : (ch :: t) ++ '<' :: mt = ch :: (t ++ '<' :: mt) := rfl
      cases hma : matchMarkerAt (ch :: t) with
      | some q =>
        have hma2 : matchMarkerAt (ch :: (t ++ '<' :: mt)) =
            some (q.1, q.2 ++ '<' :: mt) := by
          rw [← hsplit, matchMarkerAt_append mt (ch :: t) (by simp), hma]
          rfl
        rw [hsplit, stripMarkersAll_cons_some hma2, stripMarkersAll_cons_some hma]
        have hlen : q.2.length ≤ k := by
          have := matchMarkerAt_length hma
          simp only [List.length_cons] at this hc
          omega
        exact ih q.2 hlen
      | none =>
        have hma2 : matchMarkerAt (ch :: (t ++ '<' :: mt)) = none := by
          rw [← hsplit, matchMarkerAt_append mt (ch :: t) (by simp), hma]
          rfl
        rw [hsplit, stripMarkersAll_cons_none hma2, stripMarkersAll_cons_none hma]
        have hlen : t.length ≤ k := by
          simp only [List.length_cons] at hc
          omega
        rw [ih t hlen]

theorem stripReviewMetadata_append {c m : JStr} (hm : IsFullMarker m) :
    stripReviewMetadata (c ++ m) = stripReviewMetadata c := by
  obtain ⟨mt, rfl⟩ := isFullMarker_head hm
  unfold stripReviewMetadata
  rw [stripMarkersAll_append_aux hm c.length c (by omega)]

theorem extractReviewHeadSha_append {m : JStr} (hm : IsFullMarker m) (c : JStr) :
    (extractReviewHeadSha (c ++ m)).isSome = true := by
  obtain ⟨hex, hfull⟩ := hm
  induction c with
  | nil =>
    rw [List.nil_append]
    obtain ⟨mt, hmt⟩ := isFullMarker_head ⟨hex, hfull⟩
    subst hmt
    simp [extractReviewHeadSha, hfull]
  | cons ch t ih =>
    rw [List.cons_append]
    obtain ⟨mt, hmt⟩ := isFullMarker_head ⟨hex, hfull⟩
    subst hmt
    cases hk : matchMarkerAt (ch :: (t ++ '<' :: mt)) with
    | some q => simp [extractReviewHeadSha, hk]
    | none =>
      simp only [extractReviewHeadSha, hk]
      exact ih

/-- C7: appending a hidden marker to a previously posted comment's content
never changes the stripped content, hence never changes the deduplication
signature computed from it; and the marker's SHA is still extracted (not
discarded) from the marked content. -/
theorem claim_C7_marker_invariance (c m : JStr) (hm : IsFullMarker m) :
    stripReviewMetadata (c ++ m) = stripReviewMetadata c ∧
    (∀ fp sl el, buildCommentSignature (some (stripReviewMetadata (c ++ m))) fp sl el =
      buildCommentSignature (some (stripReviewMetadata c)) fp sl el) ∧
    (extractReviewHeadSha (c ++ m)).isSome = true := by
  have hstrip := stripReviewMetadata_append (c := c) hm
  exact ⟨hstrip, fun fp sl el => by rw [hstrip], extractReviewHeadSha_append hm c⟩

/-- Witness for C7 at a concrete summary body and marker. -/
theorem claim_C7_marker_invariance_witness :
    stripReviewMetadata ("Summary ".data ++ "<!-- codex-review-head: abcdef1 -->".data) =
      stripReviewMetadata "Summary ".data ∧
    (extractReviewHeadSha
      ("Summary ".data ++ "<!-- codex-review-head: abcdef1 -->".data)).isSome = true := by
  have h := claim_C7_marker_invariance "Summary ".data
    "<!-- codex-review-head: abcdef1 -->".data ⟨"abcdef1".data, by decide⟩
  exact ⟨h.1, h.2.2⟩

/-! ### Truncation lemmas -/

theorem totalDiffChars_foldl (fs : List FileDiff) : ∀ init : Nat,
    fs.foldl (fun acc f => acc + f.diff.length) init = init + totalDiffChars fs := by
  induction fs with
  | nil => intro init; simp [totalDiffChars]
  | cons f rest ih =>
    intro init
    show List.foldl _ (init + f.diff.length) rest = init + totalDiffChars (f :: rest)
    rw [ih (init + f.diff.length)]
    show _ = init + List.foldl _ (0 + f.diff.length) rest
    rw [ih (0 + f.diff.length)]
    omega

theorem totalDiffChars_nil : totalDiffChars [] = 0 := rfl

theorem totalDiffChars_cons (f : FileDiff) (fs : List FileDiff) :
    totalDiffChars (f :: fs) = f.diff.length + totalDiffChars fs := by
  show List.foldl _ (0 + f.diff.length) fs = _
  rw [totalDiffChars_foldl fs (0 + f.diff.length)]
  omega

theorem truncLoop_zero : ∀ fs : List FileDiff, truncLoop fs 0 = [] := by
  intro fs
  cases fs with
  | nil => rfl
  | cons f rest => simp [truncLoop]

/-- Full characterization of the budget loop: some greedy prefix of whole
files is kept; either the loop stopped there (input exhausted, or the budget
was spent to the last character), or the next file crossed the boundary and
was replaced by its slice with the truncation marker, dropping all later
files. -/
theorem truncLoop_spec : ∀ (fs : List FileDiff) (b : Nat),
    ∃ k, k ≤ fs.length ∧ totalDiffChars (fs.take k) ≤ b ∧
      ((truncLoop fs b = fs.take k ∧ (k = fs.length ∨ totalDiffChars (fs.take k) = b)) ∨
       (∃ f, fs[k]? = some f ∧ totalDiffChars (fs.take k) < b ∧
         b < totalDiffChars (fs.take (k + 1)) ∧
         truncLoop fs b = fs.take k ++
           [⟨f.path, f.diff.take (b - totalDiffChars (fs.take k)) ++ truncMarker⟩])) := by
  intro fs
  induction fs with
  | nil =>
    intro b
    exact ⟨0, by simp [truncLoop, totalDiffChars_nil]⟩
  | cons f rest ih =>
    intro b
    by_cases hb : b = 0
    · subst hb
      refine ⟨0, by omega, by simp [totalDiffChars_nil], Or.inl ?_⟩
      rw [truncLoop_zero]
      exact ⟨by simp, Or.inr (by simp [totalDiffChars_nil])⟩
    · by_cases hfit : f.diff.length ≤ b
      · obtain ⟨k, hk, hsum, hcase⟩ := ih (b - f.diff.length)
        refine ⟨k + 1, by simpa using hk, ?_, ?_⟩
        · rw [List.take_succ_cons, totalDiffChars_cons]
          omega
        · have hloop : truncLoop (f :: rest) b = f :: truncLoop rest (b - f.diff.length) := by
            simp [truncLoop, hb, hfit]
          rcases hcase with ⟨heq, hstop⟩ | ⟨g, hget, hlt, hgt, heq⟩
          · refine Or.inl ⟨?_, ?_⟩
            · rw [hloop, heq, List.take_succ_cons]
            · rcases hstop with h1 | h2
              · exact Or.inl (by simp [h1])
              · refine Or.inr ?_
                rw [List.take_succ_cons, totalDiffChars_cons]
                omega
          · refine Or.inr ⟨g, ?_, ?_, ?_, ?_⟩
            · simpa using hget
            · rw [List.take_succ_cons, totalDiffChars_cons]
              omega
            · rw [List.take_succ_cons, totalDiffChars_cons]
              omega
            · have harith : b - List.length f.diff - totalDiffChars (List.take k rest) =
                  b - totalDiffChars (List.take (k + 1) (f :: rest)) := by
                rw [List.take_succ_cons, totalDiffChars_cons]
                omega
              rw [hloop, heq, harith, List.take_succ_cons, List.cons_append]
      · refine ⟨0, by omega, by simp [totalDiffChars_nil], Or.inr ?_⟩
        refine ⟨f, by simp, by simp [totalDiffChars_nil]; omega, ?_, ?_⟩
        · rw [List.take_succ_cons]
          simp [totalDiffChars_cons, totalDiffChars_nil]
          omega
        · simp [truncLoop, hb, hfit, totalDiffChars_nil]

theorem truncLoop_ne_nil {fs : List FileDiff} {b : Nat} (hb : b ≠ 0)
    (hover : b < totalDiffChars fs) : truncLoop fs b ≠ [] := by
  cases fs with
  | nil => rw [totalDiffChars_nil] at hover; omega
  | cons f rest =>
    by_cases hfit : f.diff.length ≤ b
    · simp [truncLoop, hb, hfit]
    · simp [truncLoop, hb, hfit]

/-- C8 (counterexample): with an empty file list the budgeter returns an
empty result without throwing the size error, so the error is not raised
exactly when the result would be empty. -/
theorem claim_C8_counterexample :
    truncateFiles ([] : List FileDiff) 20 16000 = .ok [] := by decide

/-- C8 (amended): `truncateFiles` keeps the first `maxFiles` files in order;
within the character budget they are returned unchanged; over budget it
greedily keeps whole files, replaces the file crossing the boundary by its
diff sliced to the remaining budget with the truncation marker appended and
drops all later files (a file consuming the budget exactly ends the kept
prefix with no sliced remnant); the size error is thrown exactly when the
selected files exceed a zero budget — an empty in-budget selection is
returned as an empty list without error. -/
theorem claim_C8_amended (files : List FileDiff) (maxFiles maxChars : Nat) :
    (totalDiffChars (files.take maxFiles) ≤ maxChars →
      truncateFiles files maxFiles maxChars = .ok (files.take maxFiles)) ∧
    (maxChars < totalDiffChars (files.take maxFiles) → maxChars = 0 →
      truncateFiles files maxFiles maxChars =
        .error "Diff too large to include in prompt. Increase max-diff-chars.".data) ∧
    (maxChars < totalDiffChars (files.take maxFiles) → 0 < maxChars →
      ∃ k, k ≤ (files.take maxFiles).length ∧
        totalDiffChars ((files.take maxFiles).take k) ≤ maxChars ∧
        ((truncateFiles files maxFiles maxChars = .ok ((files.take maxFiles).take k) ∧
            totalDiffChars ((files.take maxFiles).take k) = maxChars) ∨
         (∃ f, (files.take maxFiles)[k]? = some f ∧
           totalDiffChars ((files.take maxFiles).take k) < maxChars ∧
           maxChars < totalDiffChars ((files.take maxFiles).take (k + 1)) ∧
           truncateFiles files maxFiles maxChars = .ok ((files.take maxFiles).take k ++
             [⟨f.path, f.diff.take
                 (maxChars - totalDiffChars ((files.take maxFiles).take k)) ++
               truncMarker⟩])))) := by
  refine ⟨?_, ?_, ?_⟩
  · intro h
    simp only [truncateFiles]
    rw [if_pos h]
  · intro hover h0
    subst h0
    simp only [truncateFiles]
    rw [if_neg (by omega), truncLoop_zero]
    simp
  · intro hover hpos
    obtain ⟨k, hk, hsum, hcase⟩ := truncLoop_spec (files.take maxFiles) maxChars
    have hok : truncateFiles files maxFiles maxChars =
        .ok (truncLoop (files.take maxFiles) maxChars) := by
      simp only [truncateFiles]
      rw [if_neg (by omega), if_neg (truncLoop_ne_nil (by omega) hover)]
    rcases hcase with ⟨heq, hstop⟩ | ⟨f, hget, hlt, hgt, heq⟩
    · refine ⟨k, hk, hsum, Or.inl ⟨by rw [hok, heq], ?_⟩⟩
      rcases hstop with h1 | h2
      · rw [h1, List.take_length] at hsum
        omega
      · exact h2
    · exact ⟨k, hk, hsum, Or.inr ⟨f, hget, hlt, hgt, by rw [hok, heq]⟩⟩

/-- Witness for C8 (amended): an in-budget list returned unchanged; a
zero-budget overflow raising the error; and a two-file list sliced at the
boundary. -/
theorem claim_C8_amended_witness :
    truncateFiles [⟨"a".data, "12345".data⟩] 20 16000 =
      .ok (([⟨"a".data, "12345".data⟩] : List FileDiff).take 20) ∧
    truncateFiles [⟨"a".data, "12345".data⟩] 20 0 =
      .error "Diff too large to include in prompt. Increase max-diff-chars.".data ∧
    (∃ k, k ≤ (([⟨"a".data, "12345".data⟩, ⟨"b".data, "678".data⟩] :
        List FileDiff).take 20).length ∧
      totalDiffChars ((([⟨"a".data, "12345".data⟩, ⟨"b".data, "678".data⟩] :
        List FileDiff).take 20).take k) ≤ 6 ∧
      ((truncateFiles [⟨"a".data, "12345".data⟩, ⟨"b".data, "678".data⟩] 20 6 =
          .ok ((([⟨"a".data, "12345".data⟩, ⟨"b".data, "678".data⟩] :
            List FileDiff).take 20).take k) ∧
          totalDiffChars ((([⟨"a".data, "12345".data⟩, ⟨"b".data, "678".data⟩] :
            List FileDiff).take 20).take k) = 6) ∨
       (∃ f, ((([⟨"a".data, "12345".data⟩, ⟨"b".data, "678".data⟩] :
            List FileDiff).take 20))[k]? = some f ∧
         totalDiffChars ((([⟨"a".data, "12345".data⟩, ⟨"b".data, "678".data⟩] :
            List FileDiff).take 20).take k) < 6 ∧
         6 < totalDiffChars ((([⟨"a".data, "12345".data⟩, ⟨"b".data, "678".data⟩] :
            List FileDiff).take 20).take (k + 1)) ∧
         truncateFiles [⟨"a".data, "12345".data⟩, ⟨"b".data, "678".data⟩] 20 6 =
           .ok ((([⟨"a".data, "12345".data⟩, ⟨"b".data, "678".data⟩] :
              List FileDiff).take 20).take k ++
             [⟨f.path, f.diff.take
                 (6 - totalDiffChars ((([⟨"a".data, "12345".data⟩,
                    ⟨"b".data, "678".data⟩] : List FileDiff).take 20).take k)) ++
               truncMarker⟩])))) := by
  refine ⟨?_, ?_, ?_⟩
  · exact (claim_C8_amended [⟨"a".data, "12345".data⟩] 20 16000).1 (by decide)
  · exact (claim_C8_amended [⟨"a".data, "12345".data⟩] 20 0).2.1 (by decide) rfl
  · exact (claim_C8_amended [⟨"a".data, "12345".data⟩, ⟨"b".data, "678".data⟩] 20 6).2.2
      (by decide) (by decide)

/-! ### Diff parser refinement -/

theorem flushCurrent_files (st : ParseState) :
    (flushCurrent st).files = st.files ++ flushRecord st.currentPath st.currentLines := by
  unfold flushCurrent flushRecord
  cases st.currentPath with
  | none => simp
  | some p =>
    by_cases hp : ¬p = [] ∧ ¬st.currentLines = []
    · simp [hp]
    · simp [hp]

theorem foldl_parseDiffStep_files : ∀ (lines : List JStr) (st : ParseState),
    (flushCurrent (lines.foldl parseDiffStep st)).files =
      st.files ++ contFiles st.currentPath st.currentLines lines := by
  intro lines
  induction lines with
  | nil =>
    intro st
    simp only [List.foldl_nil, contFiles]
    exact flushCurrent_files st
  | cons line rest ih =>
    intro st
    rw [List.foldl_cons]
    by_cases h : isHeaderLine line = true
    · have hstep : parseDiffStep st line =
          { flushCurrent st with
            currentPath := some (headerProvisionalPath line), currentLines := [line] } := by
        unfold parseDiffStep
        rw [if_pos (by exact h)]
      rw [hstep, ih]
      simp only [contFiles, if_pos h]
      rw [flushCurrent_files st]
      simp [List.append_assoc]
    · have hstep : parseDiffStep st line =
          { st with
            currentPath :=
              if isPlusBLine line then some (jsTrim (line.drop 6)) else st.currentPath,
            currentLines := st.currentLines ++ [line] } := by
        unfold parseDiffStep
        rw [if_neg (by exact h)]
        by_cases hpb : isPlusBLine line = true
        · rw [if_pos (by exact hpb), if_pos hpb]
        · rw [if_neg (by exact hpb), if_neg hpb]
      rw [hstep, ih]
      simp only [contFiles, if_neg h]

theorem contFiles_split : ∀ (lines : List JStr) (cp : Option JStr) (cl : List JStr),
    contFiles cp cl lines =
      flushRecord (updPath cp (splitSections lines).1) (cl ++ (splitSections lines).1) ++
        sectionsRecords (splitSections lines).2 := by
  intro lines
  induction lines with
  | nil =>
    intro cp cl
    simp [contFiles, splitSections, updPath, lastPlusPath, sectionsRecords]
  | cons line rest ih =>
    intro cp cl
    by_cases h : isHeaderLine line = true
    · have hcont : contFiles cp cl (line :: rest) = flushRecord cp cl ++
          contFiles (some (headerProvisionalPath line)) [line] rest := by
        simp [contFiles, h]
      have hsec : splitSections (line :: rest) =
          ([], (line, (splitSections rest).1) :: (splitSections rest).2) := by
        simp [splitSections, h]
      rw [hcont, ih (some (headerProvisionalPath line)) [line], hsec]
      have hthis : flushRecord (updPath (some (headerProvisionalPath line))
            (splitSections rest).1) ([line] ++ (splitSections rest).1) =
          sectionRecord line (splitSections rest).1 := by
        unfold updPath sectionRecord sectionPath flushRecord
        cases hlp : lastPlusPath (splitSections rest).1 with
        | some p =>
          by_cases hp : p = []
          · simp [hp]
          · simp [hp]
        | none =>
          by_cases hp : headerProvisionalPath line = []
          · simp [hp]
          · simp [hp]
      rw [hthis]
      show flushRecord cp cl ++ (sectionRecord line (splitSections rest).1 ++
          sectionsRecords (splitSections rest).2) =
        flushRecord (updPath cp []) (cl ++ []) ++
          sectionsRecords ((line, (splitSections rest).1) :: (splitSections rest).2)
      rw [show updPath cp [] = cp from rfl, List.append_nil]
      rfl
    · have hcont : contFiles cp cl (line :: rest) =
          contFiles (if isPlusBLine line then some (jsTrim (line.drop 6)) else cp)
            (cl ++ [line]) rest := by
        simp [contFiles, h]
      have hsec : splitSections (line :: rest) =
          (line :: (splitSections rest).1, (splitSections rest).2) := by
        simp [splitSections, h]
      rw [hcont,
        ih (if isPlusBLine line then some (jsTrim (line.drop 6)) else cp) (cl ++ [line]),
        hsec]
      have hupd : updPath (if isPlusBLine line then some (jsTrim (line.drop 6)) else cp)
          (splitSections rest).1 = updPath cp (line :: (splitSections rest).1) := by
        unfold updPath
        simp only [lastPlusPath]
        cases hlp : lastPlusPath (splitSections rest).1 with
        | some p => rfl
        | none =>
          by_cases hpb : isPlusBLine line = true
          · simp [hpb]
          · simp [hpb]
      rw [hupd]
      show flushRecord (updPath cp (line :: (splitSections rest).1))
          ((cl ++ [line]) ++ (splitSections rest).1) ++
          sectionsRecords (splitSections rest).2 = _
      rw [List.append_assoc]
      rfl

/-- C9: `parseUnifiedDiff` fails exactly when zero file records are found —
in particular on empty input — and otherwise returns, in the insertion order
of the source diff, one record per section whose resolved path is nonempty,
where the path is the (trimmed) target of the section's last `+++ b/` line
when one is present, overriding the provisional path from the `diff --git `
header's second path token stripped of its `a/` prefix. -/
theorem claim_C9_parse_records :
    (∀ diffText, parseUnifiedDiff diffText =
      if specRecords diffText = [] then
        .error "No file diffs detected in diff payload.".data
      else .ok (specRecords diffText)) ∧
    parseUnifiedDiff [] = .error "No file diffs detected in diff payload.".data := by
  refine ⟨?_, by decide⟩
  intro d
  have hfiles : (flushCurrent ((splitCRLF d).foldl parseDiffStep ⟨[], none, []⟩)).files =
      specRecords d := by
    rw [foldl_parseDiffStep_files (splitCRLF d) ⟨[], none, []⟩]
    show [] ++ contFiles none [] (splitCRLF d) = specRecords d
    rw [contFiles_split (splitCRLF d) none []]
    unfold specRecords
    have hpre : flushRecord (updPath none (splitSections (splitCRLF d)).1)
        ([] ++ (splitSections (splitCRLF d)).1) =
        preambleRecord (splitSections (splitCRLF d)).1 := by
      unfold updPath preambleRecord flushRecord
      cases hlp : lastPlusPath (splitSections (splitCRLF d)).1 with
      | none => rfl
      | some p =>
        have hne : (splitSections (splitCRLF d)).1 ≠ [] := by
          intro hnil
          rw [hnil] at hlp
          exact absurd hlp (by simp [lastPlusPath])
        by_cases hp : p = []
        · simp [hp]
        · simp [hp, hne]
    rw [List.nil_append, hpre]
  simp only [parseUnifiedDiff]
  rw [hfiles]

/-! ### Incremental-tracker lemmas -/

theorem mem_insertByIdDesc {x y : ExistingCommentSummary} :
    ∀ {l : List ExistingCommentSummary}, y ∈ insertByIdDesc x l ↔ y = x ∨ y ∈ l := by
  intro l
  induction l with
  | nil => simp [insertByIdDesc]
  | cons z rest ih =>
    simp only [insertByIdDesc]
    split
    · rw [List.mem_cons, ih, List.mem_cons]
      tauto
    · simp [List.mem_cons]

theorem mem_sortByIdDesc {y : ExistingCommentSummary} :
    ∀ {l : List ExistingCommentSummary}, y ∈ sortByIdDesc l ↔ y ∈ l := by
  intro l
  induction l with
  | nil => simp [sortByIdDesc]
  | cons x rest ih =>
    simp only [sortByIdDesc]
    rw [mem_insertByIdDesc, ih, List.mem_cons]

theorem sorted_insertByIdDesc (x : ExistingCommentSummary) :
    ∀ {l : List ExistingCommentSummary},
    l.Pairwise (fun a b => commentIdKey b ≤ commentIdKey a) →
    (insertByIdDesc x l).Pairwise (fun a b => commentIdKey b ≤ commentIdKey a) := by
  intro l
  induction l with
  | nil => intro _; simp [insertByIdDesc]
  | cons z rest ih =>
    intro hl
    rw [List.pairwise_cons] at hl
    simp only [insertByIdDesc]
    split
    · rename_i hxz
      rw [List.pairwise_cons]
      constructor
      · intro w hw
        rcases mem_insertByIdDesc.mp hw with rfl | hw2
        · exact hxz
        · exact hl.1 w hw2
      · exact ih hl.2
    · rename_i hxz
      rw [List.pairwise_cons]
      constructor
      · intro w hw
        rcases List.mem_cons.mp hw with rfl | hw2
        · omega
        · have := hl.1 w hw2
          omega
      · exact List.pairwise_cons.mpr hl

theorem sorted_sortByIdDesc : ∀ (l : List ExistingCommentSummary),
    (sortByIdDesc l).Pairwise (fun a b => commentIdKey b ≤ commentIdKey a) := by
  intro l
  induction l with
  | nil => simp [sortByIdDesc]
  | cons x rest ih => exact sorted_insertByIdDesc x ih

theorem hasMarkerSha_some {s : ExistingCommentSummary} (h : hasMarkerSha s = true) :
    ∃ hex, s.reviewHeadSha = some hex ∧ hex ≠ [] := by
  unfold hasMarkerSha at h
  cases hsha : s.reviewHeadSha with
  | none => rw [hsha] at h; exact absurd h (by simp)
  | some hex =>
    rw [hsha] at h
    exact ⟨hex, rfl, by simpa [List.isEmpty_iff] using h⟩

/-- C10: `findLatestReviewedSha` returns `undefined` exactly when no summary
carries a marker SHA; otherwise it returns the `reviewHeadSha` of a summary
carrying one whose comment identifier (`commentId ?? 0`, so summaries
without an identifier rank lowest) is maximal among all marker-carrying
summaries. -/
theorem claim_C10_find_latest (summaries : List ExistingCommentSummary) :
    (findLatestReviewedSha summaries = none ↔
      ∀ s ∈ summaries, hasMarkerSha s = false) ∧
    ((∃ s ∈ summaries, hasMarkerSha s = true) →
      ∃ s ∈ summaries, hasMarkerSha s = true ∧
        findLatestReviewedSha summaries = s.reviewHeadSha ∧
        ∀ t ∈ summaries, hasMarkerSha t = true →
          t.commentId.getD 0 ≤ s.commentId.getD 0) := by
  have hmain : ∀ h t, sortByIdDesc (summaries.filter hasMarkerSha) = h :: t →
      h ∈ summaries ∧ hasMarkerSha h = true ∧
      findLatestReviewedSha summaries = h.reviewHeadSha ∧
      ∀ u ∈ summaries, hasMarkerSha u = true →
        u.commentId.getD 0 ≤ h.commentId.getD 0 := by
    intro h t hsort
    have hmemh : h ∈ summaries.filter hasMarkerSha := by
      rw [← mem_sortByIdDesc, hsort]
      exact List.mem_cons_self h t
    have hh := List.mem_filter.mp hmemh
    refine ⟨hh.1, hh.2, ?_, ?_⟩
    · unfold findLatestReviewedSha
      rw [hsort]
      rfl
    · intro u hu hmu
      have hmemu : u ∈ h :: t := by
        rw [← hsort, mem_sortByIdDesc]
        exact List.mem_filter.mpr ⟨hu, hmu⟩
      rcases List.mem_cons.mp hmemu with rfl | hut
      · exact le_refl _
      · have hpw := sorted_sortByIdDesc (summaries.filter hasMarkerSha)
        rw [hsort, List.pairwise_cons] at hpw
        exact hpw.1 u hut
  constructor
  · constructor
    · intro hnone
      by_contra hex
      push_neg at hex
      obtain ⟨s, hs, hms⟩ := hex
      have hms' : hasMarkerSha s = true := by
        cases hval : hasMarkerSha s
        · exact absurd hval hms
        · rfl
      have hmem : s ∈ sortByIdDesc (summaries.filter hasMarkerSha) :=
        mem_sortByIdDesc.mpr (List.mem_filter.mpr ⟨hs, hms'⟩)
      cases hsort : sortByIdDesc (summaries.filter hasMarkerSha) with
      | nil => rw [hsort] at hmem; exact absurd hmem (by simp)
      | cons h t =>
        obtain ⟨-, hmh, hfind, -⟩ := hmain h t hsort
        obtain ⟨hex2, hsha, -⟩ := hasMarkerSha_some hmh
        rw [hfind, hsha] at hnone
        exact absurd hnone (by simp)
    · intro hall
      have hfilter : summaries.filter hasMarkerSha = [] := by
        rw [List.filter_eq_nil_iff]
        intro a ha
        rw [hall a ha]
        simp
      unfold findLatestReviewedSha
      rw [hfilter]
      rfl
  · intro ⟨s, hs, hms⟩
    cases hsort : sortByIdDesc (summaries.filter hasMarkerSha) with
    | nil =>
      have hmem : s ∈ sortByIdDesc (summaries.filter hasMarkerSha) :=
        mem_sortByIdDesc.mpr (List.mem_filter.mpr ⟨hs, hms⟩)
      rw [hsort] at hmem
      exact absurd hmem (by simp)
    | cons h t =>
      obtain ⟨hh1, hh2, hh3, hh4⟩ := hmain h t hsort
      exact ⟨h, hh1, hh2, hh3, hh4⟩

/-- Witness for C10 at a concrete summary list: the marker-carrying summary
with the highest comment identifier is selected. -/
theorem claim_C10_find_latest_witness :
    ∃ s, s ∈ [({ content := "a".data, rawContent := "a".data, reviewHeadSha := some "aaa1111".data, commentId := some 3 } : ExistingCommentSummary),
      ({ content := "b".data, rawContent := "b".data, reviewHeadSha := some "bbb2222".data, commentId := some 9 } : ExistingCommentSummary),
      ({ content := "c".data, rawContent := "c".data, reviewHeadSha := none, commentId := some 50 } : ExistingCommentSummary)] ∧
      hasMarkerSha s = true ∧
      findLatestReviewedSha [({ content := "a".data, rawContent := "a".data, reviewHeadSha := some "aaa1111".data, commentId := some 3 } : ExistingCommentSummary),
        ({ content := "b".data, rawContent := "b".data, reviewHeadSha := some "bbb2222".data, commentId := some 9 } : ExistingCommentSummary),
        ({ content := "c".data, rawContent := "c".data, reviewHeadSha := none, commentId := some 50 } : ExistingCommentSummary)] = s.reviewHeadSha ∧
      ∀ t, t ∈ [({ content := "a".data, rawContent := "a".data, reviewHeadSha := some "aaa1111".data, commentId := some 3 } : ExistingCommentSummary),
        ({ content := "b".data, rawContent := "b".data, reviewHeadSha := some "bbb2222".data, commentId := some 9 } : ExistingCommentSummary),
        ({ content := "c".data, rawContent := "c".data, reviewHeadSha := none, commentId := some 50 } : ExistingCommentSummary)] →
        hasMarkerSha t = true → t.commentId.getD 0 ≤ s.commentId.getD 0 :=
  (claim_C10_find_latest _).2 (by decide)
